import Mathlib

/-!
Shallow embedding of the `route` flight-logging CLI, translated from
src/main.rs.  Strings are modelled as lists of characters, Rust i32
values as integers constrained to the i32 range, and the effectful
parts of `run` as a pure state transformer over an explicit
environment that records the outcome of each I/O step.
-/

deriving instance DecidableEq for Except

namespace Route

/-! ### Rust integer parsing, as in core's str::parse::<i32>.
The parser accepts an optional sign followed by decimal digits and
accumulates the value left to right, failing with an overflow error as
soon as the accumulator leaves the i32 range. -/

inductive ParseIntError where
  | Empty
  | InvalidDigit
  | PosOverflow
  | NegOverflow
deriving DecidableEq

def i32Min : Int := -(2 ^ 31)

def i32Max : Int := 2 ^ 31 - 1

/-- Numeric value of a decimal digit character, as in char::to_digit(10). -/
def digitVal (c : Char) : Int := Int.ofNat (c.toNat - 48)

/-- Digit-accumulation loop for a non-negative parse:
result = result * 10 + digit, with a checked-overflow test each step. -/
def parseDigitsPos : Int → List Char → Except ParseIntError Int
  | acc, [] => .ok acc
  | acc, c :: cs =>
    if c.isDigit then
      if i32Max < acc * 10 + digitVal c then .error .PosOverflow
      else parseDigitsPos (acc * 10 + digitVal c) cs
    else .error .InvalidDigit

/-- Digit-accumulation loop for a negative parse:
result = result * 10 - digit, with a checked-underflow test each step. -/
def parseDigitsNeg : Int → List Char → Except ParseIntError Int
  | acc, [] => .ok acc
  | acc, c :: cs =>
    if c.isDigit then
      if acc * 10 - digitVal c < i32Min then .error .NegOverflow
      else parseDigitsNeg (acc * 10 - digitVal c) cs
    else .error .InvalidDigit

/-- Rust's str::parse::<i32>: empty input is an Empty error, a lone sign
is an InvalidDigit error, otherwise the digits after the optional sign
are accumulated. -/
def parseI32 (s : List Char) : Except ParseIntError Int :=
  match s with
  | [] => .error .Empty
  | c :: rest =>
    if c = '+' then
      if rest = [] then .error .InvalidDigit else parseDigitsPos 0 rest
    else if c = '-' then
      if rest = [] then .error .InvalidDigit else parseDigitsNeg 0 rest
    else parseDigitsPos 0 s

/-- str::split_once: split at the first occurrence of the separator. -/
def splitOnce (sep : Char) : List Char → Option (List Char × List Char)
  | [] => none
  | c :: cs =>
    if c = sep then some ([], cs)
    else
      match splitOnce sep cs with
      | none => none
      | some (l, r) => some (c :: l, r)

/-! ### ElapsedTime (src/main.rs, ElapsedTime / ParseElapsedTimeError) -/

inductive ParseElapsedTimeError where
  | Num (cause : ParseIntError)
deriving DecidableEq

structure ElapsedTime where
  hours : Int
  minutes : Int
deriving DecidableEq

/-- chrono::Duration, reduced to its whole-second count (every duration
this program builds has zero sub-second part). -/
structure Duration where
  secs : Int
deriving DecidableEq

def Duration.hours (h : Int) : Duration := ⟨h * 3600⟩

def Duration.minutes (m : Int) : Duration := ⟨m * 60⟩

def Duration.add (a b : Duration) : Duration := ⟨a.secs + b.secs⟩

/-- ElapsedTime::into_duration:
Duration::hours(self.hours) + Duration::minutes(self.minutes). -/
def ElapsedTime.into_duration (t : ElapsedTime) : Duration :=
  (Duration.hours t.hours).add (Duration.minutes t.minutes)

/-- FromStr for ElapsedTime: on a "+" separator the two sides parse as
hours and minutes verbatim; otherwise the whole string is total minutes,
split with truncating division and remainder. -/
def ElapsedTime.from_str (s : List Char) : Except ParseElapsedTimeError ElapsedTime :=
  match splitOnce '+' s with
  | some (hs, ms) =>
    match parseI32 hs with
    | .error e => .error (.Num e)
    | .ok h =>
      match parseI32 ms with
      | .error e => .error (.Num e)
      | .ok m => .ok { hours := h, minutes := m }
  | none =>
    match parseI32 s with
    | .error e => .error (.Num e)
    | .ok total => .ok { hours := total.tdiv 60, minutes := total.tmod 60 }

/-! ### Decimal rendering, as in the Display impl of i32 (format "‹h›+‹m›"
uses this for each side). -/

def decimalAux : Nat → Nat → List Char
  | 0, _ => []
  | fuel + 1, n =>
    if n < 10 then [Char.ofNat (48 + n)]
    else decimalAux fuel (n / 10) ++ [Char.ofNat (48 + n % 10)]

def natDecimal (n : Nat) : List Char := decimalAux (n + 1) n

/-- Rust Display for i32: minus sign for negatives, then the decimal
digits of the absolute value. -/
def intDecimal (n : Int) : List Char :=
  if n < 0 then '-' :: natDecimal n.natAbs else natDecimal n.natAbs

/-! ### str::lines, as used by strip_comments.
Rust splits inclusively on newline characters, then strips the final
newline of each piece together with a carriage return directly before it. -/

def splitIncl : List Char → List (List Char)
  | [] => []
  | c :: cs =>
    if c = '\n' then [c] :: splitIncl cs
    else
      match splitIncl cs with
      | [] => [[c]]
      | s :: ss => (c :: s) :: ss

def stripLineEnd (l : List Char) : List Char :=
  if l.getLast? = some '\n' then
    if l.dropLast.getLast? = some '\r' then l.dropLast.dropLast else l.dropLast
  else l

def rustLines (s : List Char) : List (List Char) := (splitIncl s).map stripLineEnd

/-- Fold body of strip_comments: skip lines whose first character is a
hash, append every other line followed by a newline, then drop a single
trailing newline if one is present. -/
def stripCore (ls : List (List Char)) : List Char :=
  let buf := ls.foldl
    (fun buf line => if line.head? = some '#' then buf else buf ++ line ++ ['\n']) []
  if buf.getLast? = some '\n' then buf.dropLast else buf

def strip_comments (notes : List Char) : List Char := stripCore (rustLines notes)

/-! ### Flight record construction (Flight::new, Flight::add_notes) -/

/-- char::to_ascii_uppercase: ASCII lowercase letters have the case bit
cleared, every other character is returned unchanged. -/
def to_ascii_uppercase (c : Char) : Char :=
  if 97 ≤ c.toNat ∧ c.toNat ≤ 122 then Char.ofNat (c.toNat ^^^ 32) else c

def str_to_ascii_uppercase (s : List Char) : List Char := s.map to_ascii_uppercase

structure Flight where
  created : List Char
  waypoints : List (List Char)
  elapsed : Duration
  notes : Option (List Char)
deriving DecidableEq

/-- Flight::new: the uppercased origin, then each waypoint uppercased in
order; the elapsed time converted to a duration; no notes yet.  The
creation timestamp is supplied by the caller (Utc::now() in the source),
modelled as its rendered form. -/
def Flight.new (now origin : List Char) (waypoints : List (List Char))
    (elapsed : ElapsedTime) : Flight :=
  { created := now
    waypoints := str_to_ascii_uppercase origin :: waypoints.map str_to_ascii_uppercase
    elapsed := elapsed.into_duration
    notes := none }

def Flight.add_notes (f : Flight) (notes : List Char) : Flight :=
  { f with notes := some notes }

/-! ### JSON serialization (serde derive on Flight plus serde_json) -/

inductive Json where
  | str (s : List Char)
  | num (n : Int)
  | arr (elems : List Json)
  | obj (fields : List (List Char × Json))

/-- Field list of the derived Serialize impl, in declaration order; the
notes field is skipped when it is None (skip_serializing_if). -/
def flightFields (f : Flight) : List (List Char × Json) :=
  [("created".data, Json.str f.created),
   ("waypoints".data, Json.arr (f.waypoints.map Json.str)),
   ("elapsed".data, Json.num f.elapsed.secs)] ++
  (match f.notes with
   | none => []
   | some n => [("notes".data, Json.str n)])

def serializeFlight (f : Flight) : Json := Json.obj (flightFields f)

def hexDigitChar (n : Nat) : Char :=
  if n < 10 then Char.ofNat (48 + n) else Char.ofNat (87 + n)

/-- serde_json string escaping: quote, backslash and control characters
are escaped, everything else is emitted verbatim. -/
def escapeChar (c : Char) : List Char :=
  if c = '"' then ['\\', '"']
  else if c = '\\' then ['\\', '\\']
  else if c = '\x08' then ['\\', 'b']
  else if c = '\x0c' then ['\\', 'f']
  else if c = '\n' then ['\\', 'n']
  else if c = '\r' then ['\\', 'r']
  else if c = '\t' then ['\\', 't']
  else if c.toNat < 32 then
    ['\\', 'u', '0', '0', hexDigitChar (c.toNat / 16), hexDigitChar (c.toNat % 16)]
  else [c]

def renderString (s : List Char) : List Char :=
  '"' :: s.foldr (fun c acc => escapeChar c ++ acc) ['"']

mutual

def jsonRender : Json → List Char
  | .str s => renderString s
  | .num n => intDecimal n
  | .arr elems => '[' :: jsonRenderList elems ++ [']']
  | .obj fields => '\x7b' :: jsonRenderFields fields ++ ['\x7d']

def jsonRenderList : List Json → List Char
  | [] => []
  | [x] => jsonRender x
  | x :: xs => jsonRender x ++ ',' :: jsonRenderList xs

def jsonRenderFields : List (List Char × Json) → List Char
  | [] => []
  | [(k, v)] => renderString k ++ ':' :: jsonRender v
  | (k, v) :: fs => renderString k ++ ':' :: jsonRender v ++ ',' :: jsonRenderFields fs

end

/-! ### The run function, as a pure transformer over an explicit
environment recording the outcome of every I/O step. -/

structure IoError where
  code : Nat
deriving DecidableEq

/-- Outcomes of the environment interactions of one invocation:
writing the temp note file, launching the editor, reading the temp file
back, resolving the data-file path (including directory creation),
opening the log file, and writing the record line.  writePartial is
whatever fragment reaches the log when the line write itself fails. -/
structure Env where
  now : List Char
  tempWrite : Option IoError
  editorRun : Option IoError
  tempRead : Except IoError (List Char)
  path : Except IoError (List Char)
  openLog : Option IoError
  writeLine : Option IoError
  writePartial : List Char

/-- read_from_file: write the help template to the temp file, run the
editor on it, read the final contents back and strip comment lines.
Each step aborts on failure. -/
def read_from_file (env : Env) : Except IoError (List Char) :=
  match env.tempWrite with
  | some e => .error e
  | none =>
    match env.editorRun with
    | some e => .error e
    | none =>
      match env.tempRead with
      | .error e => .error e
      | .ok raw => .ok (strip_comments raw)

/-- The notes text used for the record: the inline argument verbatim when
one was given, otherwise the editor round trip. -/
def acquiredNotes (argNotes : Option (List Char)) (env : Env) :
    Except IoError (List Char) :=
  match argNotes with
  | some m => .ok m
  | none => read_from_file env

/-- Record construction in run: build the flight, then attach the notes
only when they are non-empty. -/
def buildFlight (now origin : List Char) (waypoints : List (List Char))
    (elapsed : ElapsedTime) (notes : List Char) : Flight :=
  let flight := Flight.new now origin waypoints elapsed
  if notes.isEmpty then flight else flight.add_notes notes

structure RunResult where
  result : Except IoError Unit
  log : List Char
  editorRan : Bool
  built : Option Flight

/-- run: acquire notes, build the record, serialize it in memory, then
resolve the path, open the log and append the line.  log is the log
file's contents before the run; the returned log is its contents after.
editorRan records whether the editor subprocess was invoked, and built
the record that was constructed, when one was. -/
def run (argNotes : Option (List Char)) (origin : List Char)
    (waypoints : List (List Char)) (elapsed : ElapsedTime) (env : Env)
    (log : List Char) : RunResult :=
  let editorRan := argNotes.isNone && env.tempWrite.isNone
  match acquiredNotes argNotes env with
  | .error e => ⟨.error e, log, editorRan, none⟩
  | .ok notes =>
    let flight := buildFlight env.now origin waypoints elapsed notes
    let data := jsonRender (serializeFlight flight)
    match env.path with
    | .error e => ⟨.error e, log, editorRan, some flight⟩
    | .ok _ =>
      match env.openLog with
      | some e => ⟨.error e, log, editorRan, some flight⟩
      | none =>
        match env.writeLine with
        | some e => ⟨.error e, log ++ env.writePartial, editorRan, some flight⟩
        | none => ⟨.ok (), log ++ data ++ ['\n'], editorRan, some flight⟩

/-! ### Sanity checks on concrete inputs -/

example : ElapsedTime.from_str "2+75".data = .ok { hours := 2, minutes := 75 } := by rfl

example : ElapsedTime.from_str "123".data = .ok { hours := 2, minutes := 3 } := by rfl

example : ElapsedTime.from_str "-125".data = .ok { hours := -2, minutes := -5 } := by rfl

example : ElapsedTime.from_str "2+".data = .error (.Num .Empty) := by rfl

example : ElapsedTime.from_str "2+x".data = .error (.Num .InvalidDigit) := by rfl

example : ElapsedTime.from_str "2147483648".data = .error (.Num .PosOverflow) := by rfl

example : ElapsedTime.from_str "-2147483648".data = .ok { hours := -35791394, minutes := -8 } := by rfl

example : strip_comments "# a\nkeep\n# b\nalso".data = "keep\nalso".data := by rfl

example : strip_comments "x\n".data = "x".data := by rfl

example : str_to_ascii_uppercase "jfk".data = "JFK".data := by rfl

/-! ### Correctness of the integer parser on canonical decimal renderings -/

/-- Value accumulated by the positive digit loop. -/
def valFrom (acc : Int) (ds : List Char) : Int :=
  ds.foldl (fun a c => a * 10 + digitVal c) acc

/-- Value accumulated by the negative digit loop. -/
def valFromNeg (acc : Int) (ds : List Char) : Int :=
  ds.foldl (fun a c => a * 10 - digitVal c) acc

lemma digitVal_nonneg (c : Char) : 0 ≤ digitVal c := Int.ofNat_nonneg _

lemma valFrom_cons (a : Int) (c : Char) (cs : List Char) :
    valFrom a (c :: cs) = valFrom (a * 10 + digitVal c) cs := rfl

lemma valFromNeg_cons (a : Int) (c : Char) (cs : List Char) :
    valFromNeg a (c :: cs) = valFromNeg (a * 10 - digitVal c) cs := rfl

lemma valFrom_append (a : Int) (xs ys : List Char) :
    valFrom a (xs ++ ys) = valFrom (valFrom a xs) ys :=
  List.foldl_append _ _ _ _

lemma le_valFrom : ∀ (ds : List Char) (a : Int), 0 ≤ a → a ≤ valFrom a ds
  | [], _, _ => le_of_eq rfl
  | c :: cs, a, ha => by
    rw [valFrom_cons]
    have hd := digitVal_nonneg c
    have ha' : 0 ≤ a * 10 + digitVal c := by omega
    have := le_valFrom cs (a * 10 + digitVal c) ha'
    omega

lemma valFromNeg_le : ∀ (ds : List Char) (a : Int), a ≤ 0 → valFromNeg a ds ≤ a
  | [], _, _ => le_of_eq rfl
  | c :: cs, a, ha => by
    rw [valFromNeg_cons]
    have hd := digitVal_nonneg c
    have ha' : a * 10 - digitVal c ≤ 0 := by omega
    have := valFromNeg_le cs (a * 10 - digitVal c) ha'
    omega

lemma valFromNeg_eq_neg : ∀ (ds : List Char) (a : Int),
    valFromNeg a ds = -valFrom (-a) ds
  | [], a => by simp [valFromNeg, valFrom]
  | c :: cs, a => by
    rw [valFromNeg_cons, valFrom_cons, valFromNeg_eq_neg cs]
    congr 1
    ring

lemma parseDigitsPos_ok : ∀ (ds : List Char) (a : Int),
    (∀ c ∈ ds, c.isDigit = true) → 0 ≤ a → valFrom a ds ≤ i32Max →
    parseDigitsPos a ds = .ok (valFrom a ds)
  | [], a, _, _, _ => rfl
  | c :: cs, a, hdig, ha, hbound => by
    have hc : c.isDigit = true := hdig c (List.mem_cons_self c cs)
    have ha' : 0 ≤ a * 10 + digitVal c := by
      have := digitVal_nonneg c; omega
    have hb' : valFrom (a * 10 + digitVal c) cs ≤ i32Max := by
      rw [valFrom_cons] at hbound; exact hbound
    have hle : a * 10 + digitVal c ≤ i32Max :=
      le_trans (le_valFrom cs _ ha') hb'
    rw [valFrom_cons]
    simp only [parseDigitsPos, hc, if_true]
    rw [if_neg (by omega : ¬ i32Max < a * 10 + digitVal c)]
    exact parseDigitsPos_ok cs (a * 10 + digitVal c)
      (fun d hd => hdig d (List.mem_cons_of_mem _ hd)) ha' hb'

lemma parseDigitsNeg_ok : ∀ (ds : List Char) (a : Int),
    (∀ c ∈ ds, c.isDigit = true) → a ≤ 0 → i32Min ≤ valFromNeg a ds →
    parseDigitsNeg a ds = .ok (valFromNeg a ds)
  | [], a, _, _, _ => rfl
  | c :: cs, a, hdig, ha, hbound => by
    have hc : c.isDigit = true := hdig c (List.mem_cons_self c cs)
    have ha' : a * 10 - digitVal c ≤ 0 := by
      have := digitVal_nonneg c; omega
    have hb' : i32Min ≤ valFromNeg (a * 10 - digitVal c) cs := by
      rw [valFromNeg_cons] at hbound; exact hbound
    have hle : i32Min ≤ a * 10 - digitVal c :=
      le_trans hb' (valFromNeg_le cs _ ha')
    rw [valFromNeg_cons]
    simp only [parseDigitsNeg, hc, if_true]
    rw [if_neg (by omega : ¬ a * 10 - digitVal c < i32Min)]
    exact parseDigitsNeg_ok cs (a * 10 - digitVal c)
      (fun d hd => hdig d (List.mem_cons_of_mem _ hd)) ha' hb'

lemma digitChar_spec (n : Nat) (h : n < 10) :
    (Char.ofNat (48 + n)).isDigit = true ∧ (Char.ofNat (48 + n)).toNat = 48 + n := by
  interval_cases n <;> exact ⟨by decide, by decide⟩

lemma digitVal_digitChar (n : Nat) (h : n < 10) :
    digitVal (Char.ofNat (48 + n)) = Int.ofNat n := by
  have := (digitChar_spec n h).2
  simp [digitVal, this]

lemma decimalAux_spec : ∀ (fuel n : Nat), n < fuel →
    decimalAux fuel n ≠ [] ∧ (∀ c ∈ decimalAux fuel n, c.isDigit = true) ∧
      valFrom 0 (decimalAux fuel n) = Int.ofNat n
  | 0, n, h => absurd h (Nat.not_lt_zero n)
  | fuel + 1, n, h => by
    by_cases hn : n < 10
    · rw [show decimalAux (fuel + 1) n = [Char.ofNat (48 + n)] from by
        simp [decimalAux, hn]]
      refine ⟨by simp, ?_, ?_⟩
      · intro c hc
        rw [List.mem_singleton] at hc
        rw [hc]
        exact (digitChar_spec n hn).1
      · rw [valFrom_cons]
        simp [valFrom, digitVal_digitChar n hn]
    · have h10 : n / 10 < fuel := by
        have hlt : n / 10 < n := Nat.div_lt_self (by omega) (by omega)
        omega
      obtain ⟨ihne, ihdig, ihval⟩ := decimalAux_spec fuel (n / 10) h10
      have hmod : n % 10 < 10 := Nat.mod_lt _ (by omega)
      rw [show decimalAux (fuel + 1) n
            = decimalAux fuel (n / 10) ++ [Char.ofNat (48 + n % 10)] from by
        simp [decimalAux, hn]]
      refine ⟨by simp, ?_, ?_⟩
      · intro c hc
        rcases List.mem_append.mp hc with hc | hc
        · exact ihdig c hc
        · rw [List.mem_singleton] at hc
          rw [hc]
          exact (digitChar_spec _ hmod).1
      · rw [valFrom_append, ihval, valFrom_cons]
        simp only [valFrom, List.foldl_nil]
        rw [digitVal_digitChar _ hmod]
        simp only [Int.ofNat_eq_natCast]
        push_cast
        omega

lemma natDecimal_spec (n : Nat) :
    natDecimal n ≠ [] ∧ (∀ c ∈ natDecimal n, c.isDigit = true) ∧
      valFrom 0 (natDecimal n) = Int.ofNat n :=
  decimalAux_spec (n + 1) n (Nat.lt_succ_self n)

lemma isDigit_ne_sign (c : Char) (h : c.isDigit = true) : c ≠ '+' ∧ c ≠ '-' := by
  constructor <;> rintro rfl <;> exact absurd h (by decide)

lemma parseI32_all_digits (s : List Char) (hne : s ≠ [])
    (hd : ∀ c ∈ s, c.isDigit = true) : parseI32 s = parseDigitsPos 0 s := by
  match s with
  | [] => exact absurd rfl hne
  | c :: cs =>
    obtain ⟨h1, h2⟩ := isDigit_ne_sign c (hd c (List.mem_cons_self _ _))
    simp [parseI32, h1, h2]

lemma parseI32_natDecimal (k : Nat) (hk : Int.ofNat k ≤ i32Max) :
    parseI32 (natDecimal k) = .ok (Int.ofNat k) := by
  obtain ⟨hne, hdig, hval⟩ := natDecimal_spec k
  rw [parseI32_all_digits _ hne hdig,
    parseDigitsPos_ok _ 0 hdig le_rfl (by rw [hval]; exact hk), hval]

lemma parseI32_intDecimal (n : Int) (h1 : i32Min ≤ n) (h2 : n ≤ i32Max) :
    parseI32 (intDecimal n) = .ok n := by
  unfold intDecimal
  by_cases hn : n < 0
  · rw [if_pos hn]
    obtain ⟨hne, hdig, hval⟩ := natDecimal_spec n.natAbs
    have hstep : parseI32 ('-' :: natDecimal n.natAbs)
        = parseDigitsNeg 0 (natDecimal n.natAbs) := by
      simp [parseI32, hne]
    have hcast : Int.ofNat n.natAbs = -n := by
      simp only [Int.ofNat_eq_natCast]
      omega
    have hvneg : valFromNeg 0 (natDecimal n.natAbs) = n := by
      rw [valFromNeg_eq_neg, neg_zero, hval, hcast]
      ring
    rw [hstep, parseDigitsNeg_ok _ 0 hdig le_rfl (by rw [hvneg]; exact h1), hvneg]
  · rw [if_neg hn]
    have hcast : Int.ofNat n.natAbs = n := by
      simp only [Int.ofNat_eq_natCast]
      omega
    rw [parseI32_natDecimal _ (by rw [hcast]; exact h2), hcast]

lemma splitOnce_not_mem : ∀ (s : List Char), '+' ∉ s → splitOnce '+' s = none
  | [], _ => rfl
  | c :: cs, h => by
    have hc : ¬ c = '+' := fun he => h (he ▸ List.mem_cons_self c cs)
    have := splitOnce_not_mem cs (fun hm => h (List.mem_cons_of_mem c hm))
    simp [splitOnce, hc, this]

lemma splitOnce_append : ∀ (A B : List Char), '+' ∉ A →
    splitOnce '+' (A ++ '+' :: B) = some (A, B)
  | [], B, _ => by simp [splitOnce]
  | c :: A, B, h => by
    have hc : ¬ c = '+' := fun he => h (he ▸ List.mem_cons_self c A)
    have := splitOnce_append A B (fun hm => h (List.mem_cons_of_mem c hm))
    simp [splitOnce, hc, this]

lemma plus_not_mem_natDecimal (k : Nat) : '+' ∉ natDecimal k := by
  intro hm
  exact absurd ((natDecimal_spec k).2.1 '+' hm) (by decide)

lemma plus_not_mem_intDecimal (n : Int) : '+' ∉ intDecimal n := by
  unfold intDecimal
  by_cases hn : n < 0
  · rw [if_pos hn]
    intro hm
    rcases List.mem_cons.mp hm with h | h
    · exact absurd h (by decide)
    · exact plus_not_mem_natDecimal _ h
  · rw [if_neg hn]
    exact plus_not_mem_natDecimal _

/-! ### Claim C1 -/

/-- C1: for every pair of i32 values h and m, parsing the rendered string
"h+m" succeeds and yields ElapsedTime with hours h and minutes m exactly,
with no carry or normalization applied to minutes, even when m is not in
the interval from 0 to 59. -/
theorem plus_form_parses_exact (h m : Int) (hh1 : i32Min ≤ h) (hh2 : h ≤ i32Max)
    (hm1 : i32Min ≤ m) (hm2 : m ≤ i32Max) :
    ElapsedTime.from_str (intDecimal h ++ '+' :: intDecimal m)
      = .ok { hours := h, minutes := m } := by
  have hs := splitOnce_append (intDecimal h) (intDecimal m) (plus_not_mem_intDecimal h)
  simp [ElapsedTime.from_str, hs, parseI32_intDecimal h hh1 hh2,
    parseI32_intDecimal m hm1 hm2]

theorem plus_form_parses_exact_witness :
    ElapsedTime.from_str (intDecimal 2 ++ '+' :: intDecimal 75)
      = .ok { hours := 2, minutes := 75 } :=
  plus_form_parses_exact 2 75 (by decide) (by decide) (by decide) (by decide)

/-! ### Claim C2 -/

/-- C2: for every ElapsedTime with i32 fields h and m, including minutes
outside the interval from 0 to 59, converting to a duration yields exactly
h * 3600 + m * 60 seconds. -/
theorem into_duration_total_seconds (h m : Int) (hh1 : i32Min ≤ h)
    (hh2 : h ≤ i32Max) (hm1 : i32Min ≤ m) (hm2 : m ≤ i32Max) :
    (ElapsedTime.into_duration { hours := h, minutes := m }).secs
      = h * 3600 + m * 60 := rfl

theorem into_duration_total_seconds_witness :
    (ElapsedTime.into_duration { hours := 2, minutes := 75 }).secs
      = 2 * 3600 + 75 * 60 :=
  into_duration_total_seconds 2 75 (by decide) (by decide) (by decide) (by decide)

/-! ### Claim C3 -/

/-- C3: for every i32 value t, parsing the rendered string "t" yields
hours t tdiv 60 and minutes t tmod 60 under truncating division with the
remainder sign following the dividend, negative totals give non-positive
hours and a non-positive remainder, and converting the result back to
seconds equals t * 60. -/
theorem total_minutes_form (t : Int) (h1 : i32Min ≤ t) (h2 : t ≤ i32Max) :
    ElapsedTime.from_str (intDecimal t)
        = .ok { hours := t.tdiv 60, minutes := t.tmod 60 } ∧
      (ElapsedTime.into_duration { hours := t.tdiv 60, minutes := t.tmod 60 }).secs
        = t * 60 ∧
      (t < 0 → t.tdiv 60 ≤ 0 ∧ t.tmod 60 ≤ 0) := by
  refine ⟨?_, ?_, ?_⟩
  · have hs := splitOnce_not_mem (intDecimal t) (plus_not_mem_intDecimal t)
    simp [ElapsedTime.from_str, hs, parseI32_intDecimal t h1 h2]
  · show t.tdiv 60 * 3600 + t.tmod 60 * 60 = t * 60
    linear_combination 60 * Int.tdiv_add_tmod t 60
  · intro ht
    constructor
    · have h3 : (0 : Int) ≤ (-t).tdiv 60 := Int.tdiv_nonneg (by omega) (by omega)
      rw [Int.neg_tdiv] at h3
      omega
    · have h4 : (0 : Int) ≤ (-t).tmod 60 := Int.tmod_nonneg 60 (by omega)
      have h5 : (-t).tmod 60 = -(t.tmod 60) := by
        rw [Int.tmod_def, Int.tmod_def, Int.neg_tdiv]
        ring
      omega

theorem total_minutes_form_witness :
    ElapsedTime.from_str (intDecimal (-125))
      = .ok { hours := -2, minutes := -5 } := by
  have h := (total_minutes_form (-125) (by decide) (by decide)).1
  rwa [show Int.tdiv (-125) 60 = -2 from by decide,
    show Int.tmod (-125) 60 = -5 from by decide] at h

/-! ### Claim C8 -/

/-- Whether the integer parse fails on the branch the elapsed-time parser
actually takes: either side of the split when a plus sign is present, the
whole string otherwise. -/
def takenBranchFails (s : List Char) : Bool :=
  match splitOnce '+' s with
  | some (l, r) => !(parseI32 l).isOk || !(parseI32 r).isOk
  | none => !(parseI32 s).isOk

/-- The integer-parse failure e arises on the branch the elapsed-time
parser takes, in the order the source evaluates them. -/
def errorFromTaken (s : List Char) (e : ParseIntError) : Prop :=
  match splitOnce '+' s with
  | some (l, r) =>
      parseI32 l = .error e ∨ ((parseI32 l).isOk = true ∧ parseI32 r = .error e)
  | none => parseI32 s = .error e

/-- C8: for every input, the elapsed-time parser fails exactly when an
integer parse fails on the taken branch, and every failure is the Num
wrapper (MalformedDuration) around the original integer-parse error. -/
theorem from_str_error_model (s : List Char) :
    ((ElapsedTime.from_str s).isOk = false ↔ takenBranchFails s = true) ∧
      (∀ err, ElapsedTime.from_str s = .error err →
        ∃ e, err = .Num e ∧ errorFromTaken s e) := by
  constructor
  · unfold ElapsedTime.from_str takenBranchFails
    cases hsp : splitOnce '+' s with
    | none =>
      cases hp : parseI32 s <;> simp [hp, Except.isOk, Except.toBool]
    | some pr =>
      obtain ⟨l, r⟩ := pr
      cases hl : parseI32 l <;> cases hr : parseI32 r <;>
        simp [hl, hr, Except.isOk, Except.toBool]
  · intro err herr
    unfold ElapsedTime.from_str at herr
    unfold errorFromTaken
    cases hsp : splitOnce '+' s with
    | none =>
      rw [hsp] at herr
      cases hp : parseI32 s with
      | error e =>
        simp only [hp, Except.error.injEq] at herr
        exact ⟨e, herr.symm, rfl⟩
      | ok v =>
        simp [hp] at herr
    | some pr =>
      obtain ⟨l, r⟩ := pr
      rw [hsp] at herr
      cases hl : parseI32 l with
      | error e =>
        simp only [hl, Except.error.injEq] at herr
        exact ⟨e, herr.symm, Or.inl hl⟩
      | ok h =>
        cases hr : parseI32 r with
        | error e =>
          simp only [hl, hr, Except.error.injEq] at herr
          exact ⟨e, herr.symm, Or.inr ⟨by rw [hl]; rfl, hr⟩⟩
        | ok m =>
          simp [hl, hr] at herr

theorem from_str_error_model_witness :
    (ElapsedTime.from_str ('2' :: '+' :: 'x' :: [])).isOk = false ∧
      ∃ e, (ParseElapsedTimeError.Num ParseIntError.InvalidDigit) = .Num e ∧
        errorFromTaken ('2' :: '+' :: 'x' :: []) e :=
  ⟨(from_str_error_model ('2' :: '+' :: 'x' :: [])).1.mpr (by decide),
   (from_str_error_model ('2' :: '+' :: 'x' :: [])).2
     (.Num .InvalidDigit) (by rfl)⟩

/-! ### Claim C4 -/

/-- Concatenation of a list of lines with a newline terminator appended
to each, the shape the strip_comments fold builds. -/
def termJoin (ls : List (List Char)) : List Char :=
  (ls.map (fun l => l ++ ['\n'])).flatten

lemma termJoin_nil : termJoin [] = [] := rfl

lemma termJoin_cons (l : List Char) (ls : List (List Char)) :
    termJoin (l :: ls) = (l ++ ['\n']) ++ termJoin ls := by
  simp [termJoin]

lemma termJoin_ne_nil (l : List Char) (ls : List (List Char)) :
    termJoin (l :: ls) ≠ [] := by
  rw [termJoin_cons]
  simp

lemma termJoin_getLast (ls : List (List Char)) (h : ls ≠ []) :
    (termJoin ls).getLast? = some '\n' := by
  match ls with
  | [l] => simp [termJoin]
  | l :: l' :: ls =>
    rw [termJoin_cons, List.getLast?_append, termJoin_getLast (l' :: ls) (by simp)]
    rfl

lemma stripCore_foldl (ls : List (List Char)) : ∀ (b : List Char),
    ls.foldl
        (fun buf line =>
          if line.head? = some '#' then buf else buf ++ line ++ ['\n']) b
      = b ++ termJoin (ls.filter (fun l => l.head? != some '#')) := by
  induction ls with
  | nil => intro b; simp [termJoin]
  | cons l ls ih =>
    intro b
    by_cases hl : l.head? = some '#'
    · simp only [List.foldl_cons, if_pos hl, List.filter_cons]
      rw [show (l.head? != some '#') = false by simp [hl]]
      exact ih b
    · simp only [List.foldl_cons, if_neg hl, List.filter_cons]
      rw [show (l.head? != some '#') = true by simp [hl]]
      rw [ih (b ++ l ++ ['\n'])]
      simp [termJoin_cons]

lemma dropLast_termJoin : ∀ (ls : List (List Char)), ls ≠ [] →
    (termJoin ls).dropLast = List.intercalate ['\n'] ls
  | [l], _ => by
    rw [termJoin_cons, termJoin_nil, List.append_nil, List.dropLast_concat]
    simp [List.intercalate, List.intersperse]
  | l :: l' :: ls, _ => by
    rw [termJoin_cons,
      List.dropLast_append_of_ne_nil _ (termJoin_ne_nil l' ls),
      dropLast_termJoin (l' :: ls) (by simp)]
    rw [show List.intercalate ['\n'] (l :: l' :: ls)
          = l ++ '\n' :: List.intercalate ['\n'] (l' :: ls) from by
      simp [List.intercalate, List.intersperse]]
    simp

/-- Amended C4, first part: stripping equals the lines whose first
character is not a hash, in order with unchanged content, joined with
single newline separators. -/
theorem strip_comments_join (s : List Char) :
    strip_comments s
      = List.intercalate ['\n']
          ((rustLines s).filter (fun l => l.head? != some '#')) := by
  unfold strip_comments stripCore
  rw [stripCore_foldl (rustLines s) [], List.nil_append]
  by_cases hk : (rustLines s).filter (fun l => l.head? != some '#') = []
  · rw [hk, termJoin_nil]
    rfl
  · rw [if_pos (termJoin_getLast _ hk)]
    exact dropLast_termJoin _ hk

/-- Counterexample to C4 as stated: on the input of two newline
characters both (empty) lines are kept, and the result is a single
newline, which is a trailing newline. -/
theorem strip_comments_trailing_newline_cex :
    strip_comments ('\n' :: '\n' :: []) = '\n' :: [] ∧
      (strip_comments ('\n' :: '\n' :: [])).getLast? = some '\n' := by
  constructor <;> rfl

/-! ### Claim C7 -/

/-- C7: the record's waypoint sequence is the uppercased origin followed
by each waypoint argument uppercased in input order, so with at least one
waypoint argument it has length at least two. -/
theorem waypoints_origin_first (now origin : List Char) (wpts : List (List Char))
    (elapsed : ElapsedTime) (hw : wpts ≠ []) :
    (Flight.new now origin wpts elapsed).waypoints
        = str_to_ascii_uppercase origin :: wpts.map str_to_ascii_uppercase ∧
      (Flight.new now origin wpts elapsed).waypoints.length = wpts.length + 1 ∧
      2 ≤ (Flight.new now origin wpts elapsed).waypoints.length := by
  refine ⟨rfl, by simp [Flight.new], ?_⟩
  have hlen : wpts.length ≠ 0 := by
    intro h0
    exact hw (List.length_eq_zero.mp h0)
  simp only [Flight.new, List.length_cons, List.length_map]
  omega

theorem waypoints_origin_first_witness :
    (Flight.new [] "jfk".data ["lax".data] { hours := 2, minutes := 30 }).waypoints
        = str_to_ascii_uppercase "jfk".data
            :: (["lax".data] : List (List Char)).map str_to_ascii_uppercase ∧
      (Flight.new [] "jfk".data ["lax".data] { hours := 2, minutes := 30 }).waypoints.length
        = (["lax".data] : List (List Char)).length + 1 ∧
      2 ≤ (Flight.new [] "jfk".data ["lax".data]
            { hours := 2, minutes := 30 }).waypoints.length :=
  waypoints_origin_first [] "jfk".data ["lax".data] { hours := 2, minutes := 30 }
    (by decide)

/-! ### Claim C10 -/

lemma charOfNat_toNat (n : Nat) (h : n < 55296) : (Char.ofNat n).toNat = n := by
  simp [Char.ofNat, Nat.isValidChar, h, Char.toNat, Char.ofNatAux,
    UInt32.toNat, UInt32.ofNatCore]

lemma xor_clears_case_bit (n : Nat) (h1 : 97 ≤ n) (h2 : n ≤ 122) :
    n ^^^ 32 = n - 32 := by
  interval_cases n <;> rfl

/-- C10: the uppercasing used for origin and waypoints is ASCII-only:
characters at or above code point 128 (and every character that is not an
ASCII lowercase letter) pass through unchanged, while the letters a to z
map to the corresponding A to Z. -/
theorem uppercase_ascii_only :
    (∀ (now origin : List Char) (wpts : List (List Char)) (e : ElapsedTime),
        (Flight.new now origin wpts e).waypoints
          = (origin :: wpts).map (fun w => w.map to_ascii_uppercase)) ∧
      (∀ c : Char, 128 ≤ c.toNat → to_ascii_uppercase c = c) ∧
      (∀ c : Char, ¬ (97 ≤ c.toNat ∧ c.toNat ≤ 122) → to_ascii_uppercase c = c) ∧
      (∀ c : Char, 97 ≤ c.toNat → c.toNat ≤ 122 →
        (to_ascii_uppercase c).toNat = c.toNat - 32 ∧
          65 ≤ (to_ascii_uppercase c).toNat ∧ (to_ascii_uppercase c).toNat ≤ 90) := by
  refine ⟨?_, ?_, ?_, ?_⟩
  · intro now origin wpts e
    simp [Flight.new, str_to_ascii_uppercase]
  · intro c h
    unfold to_ascii_uppercase
    rw [if_neg (by omega)]
  · intro c h
    unfold to_ascii_uppercase
    rw [if_neg h]
  · intro c h1 h2
    unfold to_ascii_uppercase
    rw [if_pos ⟨h1, h2⟩]
    have hx := xor_clears_case_bit c.toNat h1 h2
    have hofn := charOfNat_toNat (c.toNat ^^^ 32) (by omega)
    refine ⟨?_, ?_, ?_⟩ <;> rw [hofn, hx] <;> omega

theorem uppercase_ascii_only_witness :
    to_ascii_uppercase 'é' = 'é' ∧
      (to_ascii_uppercase 'a').toNat = 'a'.toNat - 32 :=
  ⟨uppercase_ascii_only.2.1 'é' (by decide),
   (uppercase_ascii_only.2.2.2 'a' (by decide) (by decide)).1⟩

/-! ### Claim C6 -/

/-- C6: when an inline notes argument is supplied, even empty, no editor
session is invoked, the record is built from the inline text verbatim, and
its notes field is absent exactly when the inline text is empty. -/
theorem inline_notes_verbatim (m origin : List Char) (wpts : List (List Char))
    (elapsed : ElapsedTime) (env : Env) (log : List Char) :
    (run (some m) origin wpts elapsed env log).editorRan = false ∧
      (run (some m) origin wpts elapsed env log).built
        = some (buildFlight env.now origin wpts elapsed m) ∧
      (buildFlight env.now origin wpts elapsed m).notes
        = (if m = [] then none else some m) := by
  obtain ⟨enow, etw, eer, etr, epa, eol, ewl, ewp⟩ := env
  refine ⟨?_, ?_, ?_⟩
  · cases epa <;> cases eol <;> cases ewl <;> rfl
  · cases epa <;> cases eol <;> cases ewl <;> rfl
  · by_cases hm : m = [] <;>
      simp [buildFlight, Flight.new, Flight.add_notes, hm]

/-! ### Claim C5 -/

/-- C5: whenever a record is built, its notes field is present exactly
when the acquired notes text is non-empty; an empty text leaves the field
absent from the record and from the serialized field list, and the field
is never the empty string. -/
theorem notes_field_iff_nonempty (argNotes : Option (List Char)) (env : Env)
    (origin : List Char) (wpts : List (List Char)) (elapsed : ElapsedTime)
    (log : List Char) (notes : List Char) (f : Flight)
    (hacq : acquiredNotes argNotes env = .ok notes)
    (hbuilt : (run argNotes origin wpts elapsed env log).built = some f) :
    (f.notes = none ↔ notes = []) ∧
      (notes ≠ [] → f.notes = some notes) ∧
      f.notes ≠ some [] ∧
      (notes = [] → "notes".data ∉ (flightFields f).map Prod.fst) ∧
      (notes ≠ [] → ("notes".data, Json.str notes) ∈ flightFields f) := by
  obtain ⟨enow, etw, eer, etr, epa, eol, ewl, ewp⟩ := env
  have hf : f = buildFlight enow origin wpts elapsed notes := by
    unfold run at hbuilt
    rw [hacq] at hbuilt
    cases epa <;> cases eol <;> cases ewl <;>
      simp only [Option.some.injEq] at hbuilt <;> exact hbuilt.symm
  subst hf
  by_cases hn : notes = []
  · subst hn
    refine ⟨by simp [buildFlight, Flight.new], by simp, ?_, ?_, by simp⟩
    · simp [buildFlight, Flight.new]
    · intro _
      simp [buildFlight, Flight.new, flightFields]
  · have hne : notes.isEmpty = false := by
      cases notes with
      | nil => exact absurd rfl hn
      | cons c cs => rfl
    refine ⟨?_, ?_, ?_, ?_, ?_⟩
    · simp [buildFlight, Flight.add_notes, hne, hn]
    · intro _
      simp [buildFlight, Flight.add_notes, hne]
    · simp [buildFlight, Flight.add_notes, hne, hn]
    · intro h0
      exact absurd h0 hn
    · intro _
      simp [buildFlight, Flight.add_notes, hne, flightFields]

theorem notes_field_iff_nonempty_witness :
    (buildFlight [] "j".data ["l".data] { hours := 2, minutes := 30 }
        "hi".data).notes = some "hi".data :=
  (notes_field_iff_nonempty (some "hi".data)
      ⟨[], none, none, .ok [], .ok [], none, none, []⟩ "j".data ["l".data]
      { hours := 2, minutes := 30 } [] "hi".data
      (buildFlight [] "j".data ["l".data] { hours := 2, minutes := 30 } "hi".data)
      rfl rfl).2.1 (by decide)

/-! ### Claim C9 -/

/-- C9: a run either appends the full serialized record as one line or
leaves the log unchanged: serialization happens in memory before the
write, and a failure in notes acquisition, path resolution or opening the
file produces an error with the log contents untouched. -/
theorem append_whole_line_or_nothing (argNotes : Option (List Char))
    (origin : List Char) (wpts : List (List Char)) (elapsed : ElapsedTime)
    (env : Env) (log : List Char) :
    ((run argNotes origin wpts elapsed env log).result = .ok () →
      ∀ notes, acquiredNotes argNotes env = .ok notes →
        (run argNotes origin wpts elapsed env log).log
          = log ++ jsonRender (serializeFlight
              (buildFlight env.now origin wpts elapsed notes)) ++ ['\n']) ∧
      ((acquiredNotes argNotes env).isOk = false ∨ (env.path).isOk = false ∨
          env.openLog ≠ none →
        (run argNotes origin wpts elapsed env log).log = log ∧
          (run argNotes origin wpts elapsed env log).result.isOk = false) := by
  obtain ⟨enow, etw, eer, etr, epa, eol, ewl, ewp⟩ := env
  constructor
  · intro hok notes hacq
    unfold run at hok ⊢
    rw [hacq] at hok ⊢
    cases epa <;> cases eol <;> cases ewl <;> simp_all
  · intro hfail
    unfold run
    cases hacq : acquiredNotes argNotes
        ⟨enow, etw, eer, etr, epa, eol, ewl, ewp⟩ with
    | error e => simp [Except.isOk, Except.toBool]
    | ok notes =>
      rcases hfail with hf | hf | hf
      · rw [hacq] at hf
        simp [Except.isOk, Except.toBool] at hf
      · cases epa with
        | error e => simp [Except.isOk, Except.toBool]
        | ok p => simp [Except.isOk, Except.toBool] at hf
      · cases eol with
        | some e => cases epa <;> simp [Except.isOk, Except.toBool]
        | none => exact absurd rfl hf

theorem append_whole_line_or_nothing_witness :
    (run (some "hi".data) "j".data ["l".data] { hours := 2, minutes := 30 }
        ⟨[], none, none, .ok [], .ok [], some ⟨0⟩, none, []⟩ "x".data).log
        = "x".data ∧
      (run (some "hi".data) "j".data ["l".data] { hours := 2, minutes := 30 }
        ⟨[], none, none, .ok [], .ok [], some ⟨0⟩, none, []⟩ "x".data).result.isOk
        = false :=
  (append_whole_line_or_nothing (some "hi".data) "j".data ["l".data]
      { hours := 2, minutes := 30 }
      ⟨[], none, none, .ok [], .ok [], some ⟨0⟩, none, []⟩ "x".data).2
    (Or.inr (Or.inr (by decide)))

end Route
